import Mathlib

/-!
Shallow embedding of `src/src/data-structures/linked-lists/linked-list.js`,
a doubly linked list with cached `first`/`last` anchors and a `size` counter.

Modelling conventions:
* The JS object graph is a heap: a `List (Node α)` indexed by allocation
  order, so a node reference is a `Nat` index and a nullable reference is an
  `Option Nat`.  `new Node(v)` appends an entry; nothing is ever physically
  deleted (as in a garbage-collected runtime, an unreachable entry is simply
  never followed again).
* JS field assignment `n.previous = p` / `n.next = q` is `List.set` at the
  node's index (`setPrev`/`setNext`).  `List.set` out of range is the
  identity; a dangling index never arises from states built by the
  operations, since references are only ever copied from live fields.
* `null` and `undefined` are distinct JS values; results of the removal
  operations live in `JsOut α`, which keeps `nullv` (JS `null`), `undef`
  (JS `undefined`), `falsev` (JS `false`) and ordinary payloads apart.
* A JS `TypeError` (dereferencing a null reference) and a non-terminating
  traversal (only possible on a cyclic, hence corrupted, heap) are modelled
  by an operation returning `none`; an operation that returns normally
  yields `some` of the new state and the returned value.
* `size` is an `Int` (a JS number): the code can drive it below zero on
  corrupted states, so `Nat` would be unfaithful.
* Positions/indices are `Int` (JS numbers); the traversal counter starts
  at 0 and increments by 1, and comparisons are exact (`===`).
-/

namespace DsaJs

/-- Modelled from the spec: the `Node` class (`require('./node')` — the file
`node.js` is not among the sources).  Spec §4.1: "Pure data holder with no
behavior beyond construction (value, previous=null, next=null)." -/
structure Node (α : Type) where
  value : α
  previous : Option Nat
  next : Option Nat
deriving DecidableEq, Repr

/-- The mutable state of a `LinkedList` object together with the heap of all
nodes ever allocated for it.  Mirrors `constructor()` fields `first`, `last`,
`size`; the heap is the ambient JS object store restricted to this list. -/
structure LinkedList (α : Type) where
  heap : List (Node α)
  first : Option Nat
  last : Option Nat
  size : Int
deriving DecidableEq, Repr

/-- Result values of the removal operations: JS `null`, JS `undefined`,
JS `false`, or a stored payload. -/
inductive JsOut (α : Type) where
  | nullv
  | undef
  | falsev
  | value (v : α)
deriving DecidableEq, Repr

/-- The `constructor()`: `first = null`, `last = null`, `size = 0`. -/
def LinkedList.empty (α : Type) : LinkedList α :=
  { heap := [], first := none, last := none, size := 0 }

/-- JS assignment `node_i.previous = p` on the heap. -/
def setPrev (heap : List (Node α)) (i : Nat) (p : Option Nat) : List (Node α) :=
  match heap[i]? with
  | some n => heap.set i { n with previous := p }
  | none => heap

/-- JS assignment `node_i.next = q` on the heap. -/
def setNext (heap : List (Node α)) (i : Nat) (q : Option Nat) : List (Node α) :=
  match heap[i]? with
  | some n => heap.set i { n with next := q }
  | none => heap

/-- Read `node_i.next` (as a nullable reference). -/
def nextOf (ll : LinkedList α) (i : Nat) : Option Nat :=
  (ll.heap[i]?).bind Node.next

/-- Read `node_i.previous` (as a nullable reference). -/
def prevOf (ll : LinkedList α) (i : Nat) : Option Nat :=
  (ll.heap[i]?).bind Node.previous

namespace LinkedList

/-- `addFirst(value)` (lines 20–35).  Allocates a node with
`next = this.first` (the constructor leaves `previous` null and the method
assigns `newNode.next` before any other heap effect), repairs the old head's
back link or sets `last`, updates `first`, increments `size`, and returns the
new node. -/
def addFirst (ll : LinkedList α) (value : α) : LinkedList α × Nat :=
  let newNode := ll.heap.length
  let heap0 := ll.heap ++ [{ value := value, previous := none, next := ll.first }]
  match ll.first with
  | some f =>
      ({ heap := setPrev heap0 f (some newNode), first := some newNode,
         last := ll.last, size := ll.size + 1 }, newNode)
  | none =>
      ({ heap := heap0, first := some newNode, last := some newNode,
         size := ll.size + 1 }, newNode)

/-- `addLast(value)` (lines 45–60).  When the list is non-empty the code
dereferences `this.last` (`this.last.next = newNode`), which throws if
`first` is set but `last` is null — hence the `Option`. -/
def addLast (ll : LinkedList α) (value : α) : Option (LinkedList α × Nat) :=
  let newNode := ll.heap.length
  match ll.first with
  | some _ =>
      match ll.last with
      | none => none
      | some l =>
          let heap0 := ll.heap ++ [{ value := value, previous := ll.last, next := none }]
          some ({ heap := setNext heap0 l (some newNode), first := ll.first,
                  last := some newNode, size := ll.size + 1 }, newNode)
  | none =>
      let heap0 := ll.heap ++ [{ value := value, previous := none, next := none }]
      some ({ heap := heap0, first := some newNode, last := some newNode,
              size := ll.size + 1 }, newNode)

/-- One step of the `find` loop (lines 129–139), with explicit fuel.
The loop guard checks `current`; the callback may mutate the list (it
receives `this`), so the state is threaded through it and `current.next`
is re-read after the callback runs.  Fuel exhaustion models a traversal
that never reaches `null` (a cyclic heap), which in JS loops forever. -/
def findAux (cb : LinkedList α → Nat → Int → LinkedList α × Option β) :
    Nat → LinkedList α → Option Nat → Int → Option (LinkedList α × Option β)
  | _, ll, none, _ => some (ll, none)
  | 0, _, some _, _ => none
  | fuel + 1, ll, some i, position =>
      match ll.heap[i]? with
      | none => none
      | some _ =>
          let r := cb ll i position
          match r.2 with
          | some v => some (r.1, some v)
          | none =>
              match r.1.heap[i]? with
              | none => none
              | some n => findAux cb fuel r.1 n.next (position + 1)

/-- `find(callback)` (lines 129–139).  A traversal over a heap the callback
does not extend visits pairwise-distinct nodes, so `heap.length` iterations
suffice for every terminating run. -/
def find (ll : LinkedList α) (cb : LinkedList α → Nat → Int → LinkedList α × Option β) :
    Option (LinkedList α × Option β) :=
  findAux cb ll.heap.length ll ll.first 0

/-- `get(index)` (lines 115–122): `find((current, position) =>
position === index ? current : undefined)`; the returned value is the node
reference. -/
def get (ll : LinkedList α) (index : Int) : Option (LinkedList α × Option Nat) :=
  find ll (fun s current position => (s, if position = index then some current else none))

/-- `indexOf(value)` (lines 100–107): `find` returning the position of the
first node whose `value` is strictly equal to the argument. -/
def indexOf [DecidableEq α] (ll : LinkedList α) (value : α) :
    Option (LinkedList α × Option Int) :=
  find ll (fun s current position =>
    (s, match s.heap[current]? with
        | some n => if n.value = value then some position else none
        | none => none))

/-- `add(value, position)` (lines 69–91).  Position 0 delegates to
`addFirst`, position `size` to `addLast`; otherwise the node at `position`
is looked up with `get` and, when found, a new node is spliced in front of
it.  The allocation takes the node's final `previous`/`next` fields (the
method sets both before any other heap effect and never reads them back).
`current.previous.next = newNode` throws when `current.previous` is null;
`current.next` is then re-read for `if (current.next)
{ current.next.previous = newNode; }`.  Returns the new node, or
`undefined` for an out-of-bound index. -/
def add (ll : LinkedList α) (value : α) (position : Int) :
    Option (LinkedList α × Option Nat) :=
  if position = 0 then
    let r := addFirst ll value
    some (r.1, some r.2)
  else if position = ll.size then
    match addLast ll value with
    | some r => some (r.1, some r.2)
    | none => none
  else
    match get ll position with
    | none => none
    | some (ll1, currentRef) =>
        match currentRef with
        | none => some (ll1, none)
        | some c =>
            match ll1.heap[c]? with
            | none => none
            | some cur =>
                let newNode := ll1.heap.length
                let heap0 := ll1.heap ++ [{ value := value, previous := cur.previous, next := some c }]
                match cur.previous with
                | none => none
                | some p =>
                    let heap1 := setNext heap0 p (some newNode)
                    let heap2 :=
                      match (heap1[c]?).bind Node.next with
                      | some nx => setPrev heap1 nx (some newNode)
                      | none => heap1
                    some ({ ll1 with heap := heap2, size := ll1.size + 1 }, some newNode)

/-- `removeFirst()` (lines 147–160).  When a head exists: advance `first`,
clear the new head's back link if there is one, decrement `size`; `last` is
NOT touched in this branch.  When the list is already empty the code only
sets `this.last = null`.  Returns `head && head.value`: the removed value,
or JS `null` when `head` is null. -/
def removeFirst (ll : LinkedList α) : LinkedList α × JsOut α :=
  match ll.first with
  | none => ({ ll with last := none }, JsOut.nullv)
  | some head =>
      match ll.heap[head]? with
      | none => (ll, JsOut.nullv)
      | some hn =>
          let ll1 := { ll with first := hn.next }
          let ll2 :=
            match hn.next with
            | some f => { ll1 with heap := setPrev ll1.heap f none }
            | none => ll1
          ({ ll2 with size := ll2.size - 1 }, JsOut.value hn.value)

/-- `removeLast()` (lines 168–181).  When a tail exists: move `last` to
`tail.previous`, then either clear the new tail's `next` or (list became
empty) clear `first`; decrement `size`.  Returns `tail && tail.value`. -/
def removeLast (ll : LinkedList α) : LinkedList α × JsOut α :=
  match ll.last with
  | none => (ll, JsOut.nullv)
  | some tail =>
      match ll.heap[tail]? with
      | none => (ll, JsOut.nullv)
      | some tn =>
          let ll1 := { ll with last := tn.previous }
          let ll2 :=
            match tn.previous with
            | some l => { ll1 with heap := setNext ll1.heap l none }
            | none => { ll1 with first := none }
          ({ ll2 with size := ll2.size - 1 }, JsOut.value tn.value)

/-- The trailing `return current && current.value` of `removeByPosition`:
JS `undefined` when the lookup failed, otherwise the node's value read from
the final state. -/
def finalVal (ll : LinkedList α) (currentRef : Option Nat) : JsOut α :=
  match currentRef with
  | none => JsOut.undef
  | some c =>
      match ll.heap[c]? with
      | some n => JsOut.value n.value
      | none => JsOut.undef

/-- `removeByPosition(position)` (lines 189–203).  Looks the node up first,
then dispatches on `position === 0`, `position === this.size - 1`, or the
middle splice `current.previous.next = current.next;
current.next.previous = current.previous;` (each field re-read at its use;
a null `current.previous` or `current.next` there throws). -/
def removeByPosition (ll : LinkedList α) (position : Int) :
    Option (LinkedList α × JsOut α) :=
  match get ll position with
  | none => none
  | some (ll1, currentRef) =>
      if position = 0 then
        let ll2 := (removeFirst ll1).1
        some (ll2, finalVal ll2 currentRef)
      else if position = ll1.size - 1 then
        let ll2 := (removeLast ll1).1
        some (ll2, finalVal ll2 currentRef)
      else
        match currentRef with
        | none => some (ll1, finalVal ll1 none)
        | some c =>
            match ll1.heap[c]? with
            | none => none
            | some cur =>
                match cur.previous with
                | none => none
                | some p =>
                    let heap1 := setNext ll1.heap p cur.next
                    match (heap1[c]?).bind Node.next with
                    | none => none
                    | some nx =>
                        let heap2 := setPrev heap1 nx ((heap1[c]?).bind Node.previous)
                        let ll2 := { ll1 with heap := heap2, size := ll1.size - 1 }
                        some (ll2, finalVal ll2 currentRef)

/-- Argument of `remove(callbackOrIndex)`: either a callback (a JS function,
truthiness of its result abstracted to `Bool`, state threaded since it
receives live nodes), or anything else, represented by the result of
`parseInt(callbackOrIndex, 10)` — `none` for `NaN` (non-numeric input). -/
inductive RemoveArg (α : Type) where
  | callback (f : LinkedList α → Nat → Int → LinkedList α × Bool)
  | byIndex (parsed : Option Int)

/-- `remove(callbackOrIndex)` (lines 211–227).  A non-function argument is
parsed: `parseInt(x, 10) || 0` turns `NaN` into 0 and keeps any other
integer (0 stays 0), then delegates to `removeByPosition`.  A callback is
wrapped into a `find` that yields the first satisfying index; if none is
found the method returns `false`. -/
def remove (ll : LinkedList α) (arg : RemoveArg α) : Option (LinkedList α × JsOut α) :=
  match arg with
  | RemoveArg.byIndex parsed => removeByPosition ll (parsed.getD 0)
  | RemoveArg.callback f =>
      match find ll (fun s node index =>
          let r := f s node index
          (r.1, if r.2 then some index else none)) with
      | none => none
      | some (ll1, position) =>
          match position with
          | some pos => removeByPosition ll1 pos
          | none => some (ll1, JsOut.falsev)

end LinkedList

/-- Boolean test that `ids` enumerates exactly the chain of nodes starting at
pointer `p` and following `next` until null, where the first node's back link
must equal `prev` and each later node's back link must point to its
predecessor in `ids`. -/
def chainB (heap : List (Node α)) : Option Nat → Option Nat → List Nat → Bool
  | _, p, [] => decide (p = none)
  | prev, p, i :: rest =>
      match heap[i]? with
      | none => false
      | some n =>
          decide (p = some i) && decide (n.previous = prev) &&
            chainB heap (some i) n.next rest

/-- Representation invariant of the list (spec §3): `ids` enumerates the
chain from `first` in forward order with consistent `previous`/`next` links,
`last` is its final element, `size` counts it, and node references are
pairwise distinct. -/
def Rep (ll : LinkedList α) (ids : List Nat) : Prop :=
  chainB ll.heap none ll.first ids = true ∧
  ll.last = ids.getLast? ∧
  ll.size = (ids.length : Int) ∧
  ids.Nodup

instance (ll : LinkedList α) (ids : List Nat) : Decidable (Rep ll ids) := by
  unfold Rep; infer_instance

/-- Reference behaviour of the `find` loop over an explicit enumeration of
the chain: visit the nodes of `ids` in order, feed each (with its position)
to the callback, stop at the first non-`undefined` answer. -/
def traverseSpec (heap : List (Node α)) (cbs : Nat → Node α → Int → Option β) :
    List Nat → Int → Option β
  | [], _ => none
  | i :: rest, pos =>
      match heap[i]? with
      | none => none
      | some n =>
          match cbs i n pos with
          | some r => some r
          | none => traverseSpec heap cbs rest (pos + 1)

/-- Lift a pure callback (reading the visited node and its position) into the
state-threading callback type of `find`; this is the shape of every callback
that does not mutate the list. -/
def pureCb (cbs : Nat → Node α → Int → Option β) :
    LinkedList α → Nat → Int → LinkedList α × Option β :=
  fun s i pos =>
    (s, match s.heap[i]? with
        | some n => cbs i n pos
        | none => none)

/-- The pair `addLast(v); removeLast()` of spec §8's round-trip property. -/
def roundTrip (ll : LinkedList α) (v : α) : Option (LinkedList α × JsOut α) :=
  (LinkedList.addLast ll v).map (fun r => LinkedList.removeLast r.1)

/-- Concrete three-element list `10 -> 20 -> 30`, built by `addFirst`. -/
def exL3 : LinkedList Int :=
  (LinkedList.addFirst
    ((LinkedList.addFirst
      ((LinkedList.addFirst (LinkedList.empty Int) 30).1) 20).1) 10).1

/-- The list state after `add(99, 1)` on `exL3` (the splice that the source
performs at an interior position). -/
def exAfterAdd : LinkedList Int :=
  ((LinkedList.add exL3 99 1).getD (LinkedList.empty Int, none)).1

/-- Concrete one-element list `7`. -/
def exL1 : LinkedList Int :=
  (LinkedList.addFirst (LinkedList.empty Int) 7).1

/-- Concrete one-element list whose stored value is JS `undefined`
(modelled as `none` in a value type `Option Unit` that contains it). -/
def exU : LinkedList (Option Unit) :=
  (LinkedList.addFirst (LinkedList.empty (Option Unit)) none).1

/-- Concrete two-element list `1 -> 2`, built by `addFirst`. -/
def exL2 : LinkedList Int :=
  (LinkedList.addFirst ((LinkedList.addFirst (LinkedList.empty Int) 2).1) 1).1

/-- A pure JS predicate (inspecting the visited node and its position,
truthiness abstracted to `Bool`) lifted to the callback type accepted by
`remove`. -/
def liftPred (pb : Nat → Node α → Int → Bool) :
    LinkedList α → Nat → Int → LinkedList α × Bool :=
  fun s i pos =>
    (s, match s.heap[i]? with
        | some nd => pb i nd pos
        | none => false)

/-! Structural facts about `chainB`. -/

theorem chainB_nil {heap : List (Node α)} {prev p : Option Nat} :
    chainB heap prev p [] = true ↔ p = none := by
  simp [chainB]

theorem chainB_cons {heap : List (Node α)} {prev p : Option Nat} {i : Nat} {rest : List Nat} :
    chainB heap prev p (i :: rest) = true ↔
      p = some i ∧ ∃ n, heap[i]? = some n ∧ n.previous = prev ∧
        chainB heap (some i) n.next rest = true := by
  cases h : heap[i]? with
  | none => simp [chainB, h]
  | some n => simp [chainB, h, and_assoc]

theorem chainB_ptr {heap : List (Node α)} {prev p : Option Nat} {ids : List Nat}
    (h : chainB heap prev p ids = true) : p = ids[0]? := by
  cases ids with
  | nil => simpa using chainB_nil.mp h
  | cons i rest => simpa using (chainB_cons.mp h).1

theorem chainB_mem {heap : List (Node α)} :
    ∀ {ids : List Nat} {prev p : Option Nat}, chainB heap prev p ids = true →
      ∀ i ∈ ids, ∃ n, heap[i]? = some n := by
  intro ids
  induction ids with
  | nil => intro prev p _ i hi; cases hi
  | cons j rest IH =>
      intro prev p h i hi
      obtain ⟨-, n, hn, -, htail⟩ := chainB_cons.mp h
      rcases List.mem_cons.mp hi with hij | hir
      · exact hij ▸ ⟨n, hn⟩
      · exact IH htail i hir

theorem chainB_mem_lt {heap : List (Node α)} {ids : List Nat} {prev p : Option Nat}
    (h : chainB heap prev p ids = true) : ∀ i ∈ ids, i < heap.length := by
  intro i hi
  obtain ⟨n, hn⟩ := chainB_mem h i hi
  exact (List.getElem?_eq_some.mp hn).1

theorem chainB_length_le {heap : List (Node α)} {ids : List Nat} {prev p : Option Nat}
    (h : chainB heap prev p ids = true) (hnd : ids.Nodup) :
    ids.length ≤ heap.length := by
  have hsub : ids ⊆ List.range heap.length := fun i hi =>
    List.mem_range.mpr (chainB_mem_lt h i hi)
  simpa using (hnd.subperm hsub).length_le

theorem chainB_getElem {heap : List (Node α)} :
    ∀ {ids : List Nat} {prev p : Option Nat}, chainB heap prev p ids = true →
      ∀ j (hj : j < ids.length), ∃ n, heap[ids[j]]? = some n ∧
        n.next = ids[j + 1]? ∧
        n.previous = (if j = 0 then prev else ids[j - 1]?) := by
  intro ids
  induction ids with
  | nil => intro prev p _ j hj; simp at hj
  | cons i rest IH =>
      intro prev p h j hj
      obtain ⟨-, n, hn, hprev, htail⟩ := chainB_cons.mp h
      cases j with
      | zero =>
          refine ⟨n, by simpa using hn, ?_, by simpa using hprev⟩
          simpa using chainB_ptr htail
      | succ jj =>
          have hj' : jj < rest.length := by simpa using hj
          obtain ⟨m, hm1, hm2, hm3⟩ := IH htail jj hj'
          refine ⟨m, by simpa using hm1, by simpa using hm2, ?_⟩
          cases jj with
          | zero => simpa using hm3
          | succ k => simpa using hm3

theorem chainB_last {heap : List (Node α)} {ids : List Nat} {prev p : Option Nat} {L : Nat}
    (h : chainB heap prev p ids = true) (hL : ids.getLast? = some L) :
    ∃ n, heap[L]? = some n ∧ n.next = none := by
  have hne : ids ≠ [] := by rintro rfl; simp at hL
  have hlen : 0 < ids.length := List.length_pos.mpr hne
  rw [List.getLast?_eq_getElem?] at hL
  obtain ⟨hlt, hid⟩ := List.getElem?_eq_some.mp hL
  obtain ⟨n, hn, hnext, -⟩ := chainB_getElem h (ids.length - 1) hlt
  refine ⟨n, hid ▸ hn, ?_⟩
  rw [hnext, List.getElem?_eq_none]
  omega

theorem chainB_congr {h1 h2 : List (Node α)} :
    ∀ {ids : List Nat} {prev p : Option Nat}, (∀ i ∈ ids, h1[i]? = h2[i]?) →
      chainB h1 prev p ids = chainB h2 prev p ids := by
  intro ids
  induction ids with
  | nil => intro prev p _; rfl
  | cons i rest IH =>
      intro prev p hh
      have hi : h1[i]? = h2[i]? := hh i (by simp)
      simp only [chainB, hi]
      cases h2[i]? with
      | none => rfl
      | some n =>
          dsimp only
          rw [IH (fun j hj => hh j (List.mem_cons_of_mem i hj))]

/-! Behaviour of the `find` loop. -/

theorem findAux_frame {cb : LinkedList α → Nat → Int → LinkedList α × Option β}
    (hcb : ∀ t i q, (cb t i q).1 = t) :
    ∀ (fuel : Nat) (s : LinkedList α) (p : Option Nat) (pos : Int) out,
      LinkedList.findAux cb fuel s p pos = some out → out.1 = s := by
  intro fuel
  induction fuel with
  | zero =>
      intro s p pos out h
      cases p with
      | none => simp only [LinkedList.findAux] at h; cases h; rfl
      | some i => simp [LinkedList.findAux] at h
  | succ f IH =>
      intro s p pos out h
      cases p with
      | none => simp only [LinkedList.findAux] at h; cases h; rfl
      | some i =>
          simp only [LinkedList.findAux] at h
          cases hh : s.heap[i]? with
          | none => rw [hh] at h; cases h
          | some m =>
              rw [hh] at h
              dsimp only at h
              have hs : (cb s i pos).1 = s := hcb s i pos
              cases hr : (cb s i pos).2 with
              | some v =>
                  rw [hr] at h
                  cases h
                  exact hs
              | none =>
                  rw [hr, hs, hh] at h
                  exact IH s m.next (pos + 1) out h

theorem findAux_spec {cb : LinkedList α → Nat → Int → LinkedList α × Option β}
    {cbs : Nat → Node α → Int → Option β}
    (hcb : ∀ (s : LinkedList α) i pos n, s.heap[i]? = some n → cb s i pos = (s, cbs i n pos))
    (ll : LinkedList α) :
    ∀ (ids : List Nat) (prev p : Option Nat) (pos : Int) (fuel : Nat),
      chainB ll.heap prev p ids = true → ids.length ≤ fuel →
      LinkedList.findAux cb fuel ll p pos = some (ll, traverseSpec ll.heap cbs ids pos) := by
  intro ids
  induction ids with
  | nil =>
      intro prev p pos fuel hch _
      have hp := chainB_nil.mp hch
      subst hp
      cases fuel <;> simp [LinkedList.findAux, traverseSpec]
  | cons i rest IH =>
      intro prev p pos fuel hch hle
      obtain ⟨hp, n, hn, -, htail⟩ := chainB_cons.mp hch
      subst hp
      cases fuel with
      | zero => simp at hle
      | succ f =>
          have hcbi := hcb ll i pos n hn
          simp only [LinkedList.findAux, traverseSpec, hn, hcbi]
          cases hc : cbs i n pos with
          | some v => simp
          | none =>
              simp only [hn]
              exact IH (some i) n.next (pos + 1) f htail (by simpa using Nat.le_of_succ_le_succ hle)

theorem find_spec {cb : LinkedList α → Nat → Int → LinkedList α × Option β}
    {cbs : Nat → Node α → Int → Option β}
    (hcb : ∀ (s : LinkedList α) i pos n, s.heap[i]? = some n → cb s i pos = (s, cbs i n pos))
    {ll : LinkedList α} {ids : List Nat} (h : Rep ll ids) :
    LinkedList.find ll cb = some (ll, traverseSpec ll.heap cbs ids 0) := by
  obtain ⟨hch, -, -, hnd⟩ := h
  exact findAux_spec hcb ll ids none ll.first 0 ll.heap.length hch (chainB_length_le hch hnd)

theorem traverseSpec_get {heap : List (Node α)} (index : Int) :
    ∀ (ids : List Nat) (pos : Int), (∀ i ∈ ids, ∃ n, heap[i]? = some n) →
      traverseSpec heap (fun i _ p2 => if p2 = index then some i else none) ids pos =
        if index < pos then none else ids[(index - pos).toNat]? := by
  intro ids
  induction ids with
  | nil => intro pos _; simp [traverseSpec]
  | cons i rest IH =>
      intro pos hmem
      obtain ⟨n, hn⟩ := hmem i (by simp)
      simp only [traverseSpec, hn]
      by_cases hpi : pos = index
      · subst hpi
        simp
      · rw [if_neg hpi]
        dsimp only
        rw [IH (pos + 1) (fun j hj => hmem j (List.mem_cons_of_mem i hj))]
        by_cases h1 : index < pos
        · rw [if_pos (by omega), if_pos h1]
        · rw [if_neg (by omega), if_neg h1]
          have hk : (index - pos).toNat = (index - (pos + 1)).toNat + 1 := by omega
          rw [hk]
          simp

theorem get_eq {ll : LinkedList α} {ids : List Nat} (h : Rep ll ids) (index : Int) :
    LinkedList.get ll index =
      some (ll, if index < 0 then none else ids[index.toNat]?) := by
  have hcb : ∀ (s : LinkedList α) (i : Nat) (pos : Int) (n : Node α), s.heap[i]? = some n →
      (fun (s : LinkedList α) current position =>
        (s, if position = index then some current else none)) s i pos
        = (s, (fun i (_ : Node α) p2 => if p2 = index then some i else none) i n pos) :=
    fun _ _ _ _ _ => rfl
  have hfind := find_spec hcb h
  unfold LinkedList.get
  rw [hfind, traverseSpec_get index ids 0 (chainB_mem h.1)]
  have : (index - 0).toNat = index.toNat := by omega
  rw [this]

/-! Unfolding lemmas for the mutating operations. -/

theorem setNext_sets {heap : List (Node α)} {i : Nat} {n : Node α}
    (h : heap[i]? = some n) (q : Option Nat) :
    setNext heap i q = heap.set i { n with next := q } := by
  simp [setNext, h]

theorem setPrev_sets {heap : List (Node α)} {i : Nat} {n : Node α}
    (h : heap[i]? = some n) (q : Option Nat) :
    setPrev heap i q = heap.set i { n with previous := q } := by
  simp [setPrev, h]

theorem getElem?_append_lt {l1 l2 : List γ} {n : Nat} (h : n < l1.length) :
    (l1 ++ l2)[n]? = l1[n]? := by
  rw [List.getElem?_append, if_pos h]

theorem addLast_empty {ll : LinkedList α} (hf : ll.first = none) (v : α) :
    LinkedList.addLast ll v =
      some ({ heap := ll.heap ++ [{ value := v, previous := none, next := none }],
              first := some ll.heap.length, last := some ll.heap.length,
              size := ll.size + 1 }, ll.heap.length) := by
  simp [LinkedList.addLast, hf]

theorem addLast_nonempty {ll : LinkedList α} {f0 L : Nat} {Ln : Node α}
    (hf : ll.first = some f0) (hL : ll.last = some L) (hLn : ll.heap[L]? = some Ln) (v : α) :
    LinkedList.addLast ll v =
      some ({ heap := (ll.heap ++ [({ value := v, previous := some L, next := none } : Node α)]).set L
                        { Ln with next := some ll.heap.length },
              first := ll.first, last := some ll.heap.length,
              size := ll.size + 1 }, ll.heap.length) := by
  have hlt : L < ll.heap.length := (List.getElem?_eq_some.mp hLn).1
  have happ : (ll.heap ++ [({ value := v, previous := some L, next := none } : Node α)])[L]?
      = some Ln := by
    rw [getElem?_append_lt hlt]; exact hLn
  simp [LinkedList.addLast, hf, hL, setNext_sets happ]

theorem removeFirst_empty {ll : LinkedList α} (hf : ll.first = none) :
    LinkedList.removeFirst ll = ({ ll with last := none }, JsOut.nullv) := by
  simp [LinkedList.removeFirst, hf]

theorem removeFirst_single {ll : LinkedList α} {h0 : Nat} {hn : Node α}
    (hf : ll.first = some h0) (hh : ll.heap[h0]? = some hn) (hnx : hn.next = none) :
    LinkedList.removeFirst ll =
      ({ heap := ll.heap, first := none, last := ll.last, size := ll.size - 1 },
        JsOut.value hn.value) := by
  simp [LinkedList.removeFirst, hf, hh, hnx]

theorem removeFirst_cons {ll : LinkedList α} {h0 f : Nat} {hn : Node α}
    (hf : ll.first = some h0) (hh : ll.heap[h0]? = some hn) (hnx : hn.next = some f) :
    LinkedList.removeFirst ll =
      ({ heap := setPrev ll.heap f none, first := some f, last := ll.last,
         size := ll.size - 1 }, JsOut.value hn.value) := by
  simp [LinkedList.removeFirst, hf, hh, hnx]

theorem removeLast_empty {ll : LinkedList α} (hl : ll.last = none) :
    LinkedList.removeLast ll = (ll, JsOut.nullv) := by
  simp [LinkedList.removeLast, hl]

theorem removeLast_single {ll : LinkedList α} {t : Nat} {tn : Node α}
    (hl : ll.last = some t) (ht : ll.heap[t]? = some tn) (hp : tn.previous = none) :
    LinkedList.removeLast ll =
      ({ heap := ll.heap, first := none, last := none, size := ll.size - 1 },
        JsOut.value tn.value) := by
  simp [LinkedList.removeLast, hl, ht, hp]

theorem removeLast_cons {ll : LinkedList α} {t l : Nat} {tn : Node α}
    (hl : ll.last = some t) (ht : ll.heap[t]? = some tn) (hp : tn.previous = some l) :
    LinkedList.removeLast ll =
      ({ heap := setNext ll.heap l none, first := ll.first, last := some l,
         size := ll.size - 1 }, JsOut.value tn.value) := by
  simp [LinkedList.removeLast, hl, ht, hp]

theorem removeLast_mk_none (heap : List (Node α)) (f0 : Option Nat) (s0 : Int)
    (t : Nat) (tn : Node α) (ht : heap[t]? = some tn) (hp : tn.previous = none) :
    LinkedList.removeLast { heap := heap, first := f0, last := some t, size := s0 } =
      ({ heap := heap, first := none, last := none, size := s0 - 1 },
        JsOut.value tn.value) :=
  removeLast_single rfl ht hp

theorem removeLast_mk_some (heap : List (Node α)) (f0 : Option Nat) (s0 : Int)
    (t : Nat) (tn : Node α) (l : Nat) (ht : heap[t]? = some tn)
    (hp : tn.previous = some l) :
    LinkedList.removeLast { heap := heap, first := f0, last := some t, size := s0 } =
      ({ heap := setNext heap l none, first := f0, last := some l, size := s0 - 1 },
        JsOut.value tn.value) :=
  removeLast_cons rfl ht hp

/-- C6: on every list state satisfying the invariants, `addLast(v)`
immediately followed by `removeLast()` returns `v` and restores the prior
`size` and the prior `first`/`last` anchors; every node of the prior chain
is byte-for-byte restored, so the abstract list state is unchanged by the
pair (the only residue is the unreachable garbage node in the heap, which
in JS is simply collected). -/
theorem addLast_removeLast_roundtrip (ll : LinkedList α) (ids : List Nat) (v : α)
    (h : Rep ll ids) :
    ∃ llB, roundTrip ll v = some (llB, JsOut.value v) ∧
      llB.first = ll.first ∧ llB.last = ll.last ∧ llB.size = ll.size ∧
      (∀ i ∈ ids, llB.heap[i]? = ll.heap[i]?) ∧ Rep llB ids := by
  obtain ⟨hch, hlast, hsize, hnd⟩ := h
  cases ids with
  | nil =>
      have hf : ll.first = none := by simpa using chainB_ptr hch
      have hl : ll.last = none := by simpa using hlast
      refine ⟨{ heap := ll.heap ++ [{ value := v, previous := none, next := none }],
                first := none, last := none, size := ll.size + 1 - 1 },
              ?_, hf.symm, hl.symm, by show ll.size + 1 - 1 = ll.size; omega,
              by simp, ?_, by simp, ?_, by simp⟩
      · rw [roundTrip, addLast_empty hf v, Option.map_some']
        rw [removeLast_mk_none _ _ _ _ _ (List.getElem?_concat_length ll.heap _) rfl]
      · simp [chainB]
      · show ll.size + 1 - 1 = (([] : List Nat).length : Int)
        simp only [List.length_nil, Int.natCast_zero] at hsize ⊢
        omega
  | cons i0 rest =>
      have hf : ll.first = some i0 := by simpa using chainB_ptr hch
      obtain ⟨L, hL⟩ : ∃ L, (i0 :: rest).getLast? = some L := by
        rw [List.getLast?_eq_getElem?]
        exact ⟨_, List.getElem?_eq_getElem (by simp)⟩
      rw [hL] at hlast
      obtain ⟨Ln, hLn, hLnext⟩ := chainB_last hch hL
      have hLlt : L < ll.heap.length := (List.getElem?_eq_some.mp hLn).1
      have hLw : L ≠ ll.heap.length := by omega
      have hA := addLast_nonempty hf hlast hLn v
      -- the garbage node appended by addLast
      have hxw : ((ll.heap ++ [({ value := v, previous := some L, next := none } : Node α)]).set L
            { Ln with next := some ll.heap.length })[ll.heap.length]?
          = some ({ value := v, previous := some L, next := none } : Node α) := by
        rw [List.getElem?_set_ne hLw, List.getElem?_concat_length]
      have hLA : ((ll.heap ++ [({ value := v, previous := some L, next := none } : Node α)]).set L
            { Ln with next := some ll.heap.length })[L]?
          = some ({ Ln with next := some ll.heap.length }) := by
        rw [List.getElem?_set]
        have hlt2 : L < ll.heap.length + 1 := by omega
        simp [hlt2]
      have hLid : ({ { Ln with next := some ll.heap.length } with next := none } : Node α) = Ln := by
        cases Ln with
        | mk a b c => simp only [Node.mk.injEq] at hLnext ⊢; simp [hLnext]
      have hpoint : ∀ i ∈ i0 :: rest,
          ((ll.heap ++ [({ value := v, previous := some L, next := none } : Node α)]).set L
            Ln)[i]? = ll.heap[i]? := by
        intro i hi
        have hilt := chainB_mem_lt hch i hi
        by_cases hiL : i = L
        · subst hiL
          rw [List.getElem?_set]
          have hlt2 : i < ll.heap.length + 1 := by omega
          simp [hlt2, hLn]
        · rw [List.getElem?_set_ne (fun hh => hiL hh.symm), getElem?_append_lt hilt]
      refine ⟨{ heap := (ll.heap ++ [({ value := v, previous := some L, next := none } : Node α)]).set L
                  Ln,
                first := ll.first, last := some L, size := ll.size + 1 - 1 },
              ?_, rfl, hlast.symm, by show ll.size + 1 - 1 = ll.size; omega,
              hpoint, ?_, hL.symm, ?_, hnd⟩
      · rw [roundTrip, hA, Option.map_some']
        dsimp only
        rw [removeLast_mk_some _ _ _ _ _ _ hxw rfl, setNext_sets hLA none, List.set_set, hLid]
      · dsimp only
        rw [chainB_congr hpoint]
        exact hch
      · show ll.size + 1 - 1 = ((i0 :: rest).length : Int)
        omega

theorem getElem?_setPrev_ne {heap : List (Node α)} {i j : Nat} (h : i ≠ j) (q : Option Nat) :
    (setPrev heap i q)[j]? = heap[j]? := by
  unfold setPrev
  cases heap[i]? with
  | none => rfl
  | some m => exact List.getElem?_set_ne h

theorem getElem?_setNext_ne {heap : List (Node α)} {i j : Nat} (h : i ≠ j) (q : Option Nat) :
    (setNext heap i q)[j]? = heap[j]? := by
  unfold setNext
  cases heap[i]? with
  | none => rfl
  | some m => exact List.getElem?_set_ne h

/-- On a well-formed list, `removeByPosition` at an in-range position returns
the value stored at that position (never `false`, never `undefined`); at
position 0 the state is exactly the `removeFirst` state. -/
theorem removeByPosition_found {ll : LinkedList α} {ids : List Nat} (h : Rep ll ids)
    (p : Int) (hp0 : 0 ≤ p) (hplen : p.toNat < ids.length) :
    ∃ c n ll2, ids[p.toNat]? = some c ∧ ll.heap[c]? = some n ∧
      LinkedList.removeByPosition ll p = some (ll2, JsOut.value n.value) ∧
      (p = 0 → ll2 = (LinkedList.removeFirst ll).1) := by
  obtain ⟨hch, hlast, hsize, hnd⟩ := h
  have hrep : Rep ll ids := ⟨hch, hlast, hsize, hnd⟩
  have hget := get_eq hrep p
  rw [if_neg (by omega : ¬ p < 0)] at hget
  have hc := List.getElem?_eq_getElem hplen
  obtain ⟨n, hn, hnext, hprev⟩ := chainB_getElem hch p.toNat hplen
  by_cases hp0' : p = 0
  · -- position 0: the removeFirst branch
    subst hp0'
    simp only [Int.toNat_zero] at hplen hc hn hnext hprev hget
    simp only [Nat.zero_add] at hnext
    have hf : ll.first = some ids[0] := (chainB_ptr hch).trans hc
    refine ⟨ids[0], n, (LinkedList.removeFirst ll).1, hc, hn, ?_, fun _ => rfl⟩
    unfold LinkedList.removeByPosition
    rw [hget, hc]
    dsimp only
    rw [if_pos rfl]
    cases hnx : n.next with
    | none =>
        rw [removeFirst_single hf hn hnx]
        simp [LinkedList.finalVal, hn]
    | some f =>
        have hf1 : ids[1]? = some f := hnext ▸ hnx
        obtain ⟨h1lt, hf1e⟩ := List.getElem?_eq_some.mp hf1
        have hne : f ≠ ids[0] := by
          rw [← hf1e]
          intro hEq
          have := hnd.getElem_inj_iff.mp hEq
          omega
        rw [removeFirst_cons hf hn hnx]
        simp [LinkedList.finalVal, getElem?_setPrev_ne hne, hn]
  · by_cases htail : p = ll.size - 1
    · -- last position: the removeLast branch
      have ht1 : 1 ≤ p.toNat := by omega
      have htlen : p.toNat = ids.length - 1 := by omega
      have hlastc : ll.last = some ids[p.toNat] := by
        rw [hlast, List.getLast?_eq_getElem?, ← htlen, hc]
      have hnxnone : n.next = none := by
        rw [hnext]
        exact List.getElem?_eq_none (by omega)
      rw [if_neg (by omega : ¬ (p.toNat = 0))] at hprev
      have hKlt : p.toNat - 1 < ids.length := by omega
      have hKe := List.getElem?_eq_getElem hKlt
      rw [hKe] at hprev
      have hKne : ids[p.toNat - 1] ≠ ids[p.toNat] := by
        intro hEq
        have := hnd.getElem_inj_iff.mp hEq
        omega
      refine ⟨ids[p.toNat], n, (LinkedList.removeLast ll).1, hc, hn, ?_,
        fun hp => absurd hp hp0'⟩
      unfold LinkedList.removeByPosition
      rw [hget, hc]
      dsimp only
      rw [if_neg hp0', if_pos htail]
      rw [removeLast_cons hlastc hn hprev]
      simp [LinkedList.finalVal, getElem?_setNext_ne hKne, hn]
    · -- interior position: the splice branch
      have ht1 : 1 ≤ p.toNat := by omega
      have htmid : p.toNat + 1 < ids.length := by
        have : p.toNat ≠ ids.length - 1 := by
          intro hEq
          apply htail
          omega
        omega
      rw [if_neg (by omega : ¬ (p.toNat = 0))] at hprev
      have hKlt : p.toNat - 1 < ids.length := by omega
      have hKe := List.getElem?_eq_getElem hKlt
      rw [hKe] at hprev
      have hMe := List.getElem?_eq_getElem htmid
      rw [hMe] at hnext
      have hKne : ids[p.toNat - 1] ≠ ids[p.toNat] := by
        intro hEq
        have := hnd.getElem_inj_iff.mp hEq
        omega
      have hMne : ids[p.toNat + 1] ≠ ids[p.toNat] := by
        intro hEq
        have := hnd.getElem_inj_iff.mp hEq
        omega
      refine ⟨ids[p.toNat], n,
        { heap := setPrev (setNext ll.heap (ids[p.toNat - 1]) n.next) (ids[p.toNat + 1]) n.previous,
          first := ll.first, last := ll.last, size := ll.size - 1 },
        hc, hn, ?_, fun hp => absurd hp hp0'⟩
      unfold LinkedList.removeByPosition
      rw [hget, hc]
      dsimp only
      rw [if_neg hp0', if_neg htail]
      simp only [LinkedList.finalVal, hn, hprev, hnext, getElem?_setNext_ne hKne,
        getElem?_setPrev_ne hMne, Option.some_bind]

/-- If the callback answers `undefined` on every node actually enumerated by
`ids` (each at the position it is visited at), the traversal yields
`undefined` — nothing is assumed about the callback outside the list. -/
theorem traverseSpec_none_on {heap : List (Node α)} {cbs : Nat → Node α → Int → Option β} :
    ∀ (ids : List Nat) (pos : Int),
      (∀ k (hk : k < ids.length) nd, heap[ids[k]]? = some nd →
        cbs (ids[k]) nd (pos + (k : Int)) = none) →
      traverseSpec heap cbs ids pos = none := by
  intro ids
  induction ids with
  | nil => intro pos _; rfl
  | cons i rest IH =>
      intro pos hmiss
      simp only [traverseSpec]
      cases hh : heap[i]? with
      | none => rfl
      | some nd =>
          have h0 := hmiss 0 (by simp) nd (by simpa using hh)
          simp only [List.getElem_cons_zero, Nat.cast_zero, add_zero] at h0
          simp only [h0]
          refine IH (pos + 1) ?_
          intro k hk nd2 hnd2
          have hstep := hmiss (k + 1) (by simpa using Nat.succ_lt_succ hk) nd2
            (by simpa using hnd2)
          rw [show pos + ((k + 1 : Nat) : Int) = pos + 1 + (k : Int) from by push_cast; ring] at hstep
          simpa using hstep

/-- If the predicate is false on the nodes of `ids` before index `j` and
true at index `j`, the wrapped first-match traversal returns position
`pos + j`. -/
theorem traverseSpec_pred_hit {heap : List (Node α)} {pb : Nat → Node α → Int → Bool} :
    ∀ (ids : List Nat) (pos : Int) (j : Nat) (hj : j < ids.length) (nd : Node α),
      (∀ i2 ∈ ids, ∃ m, heap[i2]? = some m) →
      (∀ k (hk : k < ids.length), k < j → ∀ m, heap[ids[k]]? = some m →
        pb (ids[k]) m (pos + (k : Int)) = false) →
      heap[ids[j]]? = some nd →
      pb (ids[j]) nd (pos + (j : Int)) = true →
      traverseSpec heap (fun i2 nd2 p2 => if pb i2 nd2 p2 then some p2 else none) ids pos
        = some (pos + (j : Int)) := by
  intro ids
  induction ids with
  | nil => intro pos j hj; simp at hj
  | cons i rest IH =>
      intro pos j hj nd hvalid hmiss hnd hhit
      cases j with
      | zero =>
          have hnd2 : heap[i]? = some nd := by simpa using hnd
          have hhit2 : pb i nd pos = true := by simpa using hhit
          simp [traverseSpec, hnd2, hhit2]
      | succ jj =>
          obtain ⟨m, hm⟩ := hvalid i (by simp)
          have hm0 : pb i m pos = false := by
            have := hmiss 0 (by simp) (by omega) m (by simpa using hm)
            simpa using this
          have hcast : pos + ((jj + 1 : Nat) : Int) = pos + 1 + (jj : Int) := by
            push_cast
            ring
          have hIH := IH (pos + 1) jj (by simpa using Nat.lt_of_succ_lt_succ hj) nd
            (fun i2 hi2 => hvalid i2 (List.mem_cons_of_mem i hi2))
            (fun k hk hkj m2 hm2 => by
              have hstep := hmiss (k + 1) (by simpa using Nat.succ_lt_succ hk)
                (by omega) m2 (by simpa using hm2)
              rw [show pos + ((k + 1 : Nat) : Int) = pos + 1 + (k : Int) from by
                push_cast; ring] at hstep
              simpa using hstep)
            (by simpa using hnd)
            (by
              have h4 := hhit
              rw [hcast] at h4
              simpa using h4)
          simp [traverseSpec, hm, hm0, hIH]
          omega

/-- On a well-formed list, `removeByPosition` at a position that resolves to
no node returns JS `undefined` and leaves the state unchanged. -/
theorem removeByPosition_miss {ll : LinkedList α} {ids : List Nat} (h : Rep ll ids)
    (p : Int) (hout : p < 0 ∨ ll.size ≤ p) :
    LinkedList.removeByPosition ll p = some (ll, JsOut.undef) := by
  obtain ⟨hch, hlast, hsize, hnd⟩ := h
  have hrep : Rep ll ids := ⟨hch, hlast, hsize, hnd⟩
  have hget := get_eq hrep p
  have hmiss : (if p < 0 then none else ids[p.toNat]?) = none := by
    by_cases hneg : p < 0
    · simp [hneg]
    · rw [if_neg hneg]
      exact List.getElem?_eq_none (by omega)
  rw [hmiss] at hget
  unfold LinkedList.removeByPosition
  rw [hget]
  dsimp only
  by_cases hp0 : p = 0
  · rw [if_pos hp0]
    have hids : ids = [] := by
      have : ids.length = 0 := by omega
      exact List.length_eq_zero.mp this
    subst hids
    have hf : ll.first = none := by simpa using chainB_ptr hch
    have hl : ll.last = none := by simpa using hlast
    rw [removeFirst_empty hf]
    have hlleq : ({ ll with last := none } : LinkedList α) = ll := by
      cases ll with
      | mk a b c d => simp_all
    dsimp only
    rw [hlleq]
    rfl
  · rw [if_neg hp0]
    by_cases hpm1 : p = ll.size - 1
    · have hids : ids = [] := by
        have : ids.length = 0 := by omega
        exact List.length_eq_zero.mp this
      subst hids
      have hl : ll.last = none := by simpa using hlast
      rw [if_pos hpm1, removeLast_empty hl]
      rfl
    · rw [if_neg hpm1]
      rfl

/-! Claim theorems. -/

/-- C1: the claim says every public operation preserves the doubly-linked
consistency invariant (`n.next == m` implies `m.previous == n` and
conversely).  The code violates it: on the invariant-satisfying list
`10 -> 20 -> 30` (`exL3`, chain `[2, 1, 0]`), `add(99, 1)` splices node 3 so
that `3.next == node 1` while `node 1.previous` is still node 2, not node 3
— the source writes `current.next.previous = newNode` instead of
`current.previous = newNode`. -/
theorem add_breaks_doubly_linked_invariant :
    Rep exL3 [2, 1, 0] ∧
    LinkedList.add exL3 99 1 = some (exAfterAdd, some 3) ∧
    nextOf exAfterAdd 3 = some 1 ∧
    prevOf exAfterAdd 1 = some 2 ∧
    prevOf exAfterAdd 1 ≠ some 3 := by decide

/-- C2: the claim says `add(v, p)` at an interior position repairs both
neighbors and that the node formerly at position `p` afterwards has the new
node as its `previous` link.  On `exL3` (chain `[2, 1, 0]`), `add(99, 1)`
correctly splices the forward chain `2 -> 3 -> 1 -> 0` and increments size,
but the node formerly at position 1 (node 1) keeps `previous = node 2`
instead of the new node 3, and the following node 0 wrongly gets
`previous = node 3`. -/
theorem add_does_not_relink_current_previous :
    Rep exL3 [2, 1, 0] ∧
    (LinkedList.get exL3 1).map Prod.snd = some (some 1) ∧
    LinkedList.add exL3 99 1 = some (exAfterAdd, some 3) ∧
    exAfterAdd.size = 4 ∧
    nextOf exAfterAdd 2 = some 3 ∧
    nextOf exAfterAdd 3 = some 1 ∧
    prevOf exAfterAdd 3 = some 2 ∧
    prevOf exAfterAdd 1 = some 2 ∧
    prevOf exAfterAdd 1 ≠ some 3 ∧
    prevOf exAfterAdd 0 = some 3 ∧
    prevOf exAfterAdd 0 ≠ some 1 := by decide

/-- C3: the claim says `size == 0` iff `first == null` iff `last == null`
after every operation, and in particular that `removeFirst` on a one-element
list clears both anchors.  The code clears `last` only when the list was
ALREADY empty: on the one-element list `exL1`, `removeFirst` leaves
`size = 0` and `first = null` but `last` still pointing at the removed
node. -/
theorem removeFirst_leaves_dangling_last :
    Rep exL1 [0] ∧
    (LinkedList.removeFirst exL1).2 = JsOut.value 7 ∧
    (LinkedList.removeFirst exL1).1.size = 0 ∧
    (LinkedList.removeFirst exL1).1.first = none ∧
    (LinkedList.removeFirst exL1).1.last = some 0 ∧
    (LinkedList.removeFirst exL1).1.last ≠ none := by decide

/-- C4 (counterexample): the claim says `remove` returns `false` whenever no
matching element is found, including a position resolving to no node.  But
`remove(5)` on the empty list goes through `removeByPosition`, which returns
JS `undefined` (`current && current.value` with a failed lookup), not
`false`. -/
theorem remove_positional_miss_returns_undefined_not_false :
    LinkedList.remove (LinkedList.empty Int) (LinkedList.RemoveArg.byIndex (some 5))
      = some (LinkedList.empty Int, JsOut.undef) ∧
    (JsOut.undef : JsOut Int) ≠ JsOut.falsev := by decide

/-- C9 (counterexample): the claim says that on a list whose head (tail)
stores `undefined`, `removeFirst` (`removeLast`) returns the SAME result as
the absent signal for an empty list.  It does not: the stored-`undefined`
removal returns JS `undefined` while the empty-list signal is JS `null`
(`head && head.value` with `head == null`), and the two are distinguishable
(strict inequality). -/
theorem removeFirst_undefined_value_differs_from_empty_signal :
    (LinkedList.removeFirst exU).2 = JsOut.value none ∧
    (LinkedList.removeLast exU).2 = JsOut.value none ∧
    (LinkedList.removeFirst (LinkedList.empty (Option Unit))).2 = JsOut.nullv ∧
    (LinkedList.removeLast (LinkedList.empty (Option Unit))).2 = JsOut.nullv ∧
    (LinkedList.removeFirst exU).2 ≠ (LinkedList.removeFirst (LinkedList.empty (Option Unit))).2 := by
  decide

/-- C4 (amended): on every list state satisfying the invariants, `remove`
returns `false` when a predicate callback is never satisfied on the nodes of
the list; when the predicate is first satisfied at some position `j`, the
node at `j` is removed and its value returned; when a position-like argument
resolves to no existing node it returns JS `undefined` (the uniform absent
signal of `removeByPosition`), not `false`, leaving the list unchanged; and
an in-range position returns the removed value. -/
theorem remove_result_classification (ll : LinkedList α) (ids : List Nat)
    (pb : Nat → Node α → Int → Bool) (p : Int) (j : Nat) (h : Rep ll ids) :
    ((∀ k (hk : k < ids.length) nd, ll.heap[ids[k]]? = some nd →
        pb (ids[k]) nd (k : Int) = false) →
      LinkedList.remove ll (LinkedList.RemoveArg.callback (liftPred pb))
        = some (ll, JsOut.falsev)) ∧
    ((hj : j < ids.length) →
      (∀ k (hk : k < ids.length), k < j → ∀ m, ll.heap[ids[k]]? = some m →
        pb (ids[k]) m (k : Int) = false) →
      ∀ nd, ll.heap[ids[j]]? = some nd → pb (ids[j]) nd (j : Int) = true →
      ∃ ll2, LinkedList.remove ll (LinkedList.RemoveArg.callback (liftPred pb))
        = some (ll2, JsOut.value nd.value)) ∧
    ((p < 0 ∨ ll.size ≤ p) →
      LinkedList.remove ll (LinkedList.RemoveArg.byIndex (some p))
        = some (ll, JsOut.undef)) ∧
    (0 ≤ p → p < ll.size →
      ∃ c nd ll2, ids[p.toNat]? = some c ∧ ll.heap[c]? = some nd ∧
        LinkedList.remove ll (LinkedList.RemoveArg.byIndex (some p))
          = some (ll2, JsOut.value nd.value)) := by
  have hcb : ∀ (s : LinkedList α) (i : Nat) (pos : Int) (nd : Node α),
      s.heap[i]? = some nd →
      (fun s node index =>
        let r := liftPred pb s node index
        (r.1, if r.2 then some index else none)) s i pos
        = (s, (fun i (nd : Node α) pos =>
            if pb i nd pos then some pos else none) i nd pos) := by
    intro s i pos nd hnd
    simp [liftPred, hnd]
  refine ⟨?_, ?_, ?_, ?_⟩
  · intro hmiss
    have hfind := find_spec hcb h
    have hts : traverseSpec ll.heap
        (fun i (nd : Node α) pos => if pb i nd pos then some pos else none) ids 0 = none := by
      refine traverseSpec_none_on ids 0 ?_
      intro k hk nd hnd
      simp only [zero_add]
      rw [hmiss k hk nd hnd]
      simp
    rw [hts] at hfind
    unfold LinkedList.remove
    dsimp only
    rw [hfind]
  · intro hj hmiss nd hnd hhit
    have hvalid := chainB_mem h.1
    have hts := traverseSpec_pred_hit ids 0 j hj nd hvalid
      (fun k hk hkj m hm => by simpa using hmiss k hk hkj m hm)
      hnd (by simpa using hhit)
    rw [zero_add] at hts
    have hfind := find_spec hcb h
    rw [hts] at hfind
    have hplen : ((j : Int)).toNat < ids.length := by
      rw [Int.toNat_natCast]
      exact hj
    obtain ⟨c, nd2, ll2, hc, hnd2, hrbp, -⟩ :=
      removeByPosition_found h (j : Int) (by omega) hplen
    rw [Int.toNat_natCast] at hc
    have hcj : c = ids[j] := by
      have h2 := List.getElem?_eq_getElem hj
      rw [h2] at hc
      exact (Option.some.inj hc).symm
    rw [hcj] at hnd2
    have hnd2eq : nd2 = nd := Option.some.inj (hnd2.symm.trans hnd)
    refine ⟨ll2, ?_⟩
    unfold LinkedList.remove
    dsimp only
    rw [hfind]
    dsimp only
    rw [hrbp, hnd2eq]
  · intro hout
    show LinkedList.removeByPosition ll p = some (ll, JsOut.undef)
    exact removeByPosition_miss h p hout
  · intro hp0 hplt
    have hplen : p.toNat < ids.length := by
      obtain ⟨-, -, hsize, -⟩ := h
      omega
    obtain ⟨c, nd, ll2, hc, hnd2, hrbp, -⟩ := removeByPosition_found h p hp0 hplen
    exact ⟨c, nd, ll2, hc, hnd2, hrbp⟩

/-- C5: on every list state satisfying the invariants, `get(i)` with `i`
outside `[0, size-1]` and `add(v, p)` with `p` outside `[0, size]` both
return the absent result (`undefined`) rather than raising an error (the
operation completes normally), and the failed `add` leaves the list state —
`size` included — entirely unchanged. -/
theorem get_add_out_of_range (ll : LinkedList α) (v : α) (ids : List Nat)
    (h : Rep ll ids) (i p : Int)
    (hi : i < 0 ∨ ll.size ≤ i) (hp : p < 0 ∨ ll.size < p) :
    LinkedList.get ll i = some (ll, none) ∧
    LinkedList.add ll v p = some (ll, none) := by
  obtain ⟨hch, hlast, hsize, hnd⟩ := h
  have hrep : Rep ll ids := ⟨hch, hlast, hsize, hnd⟩
  constructor
  · rw [get_eq hrep i]
    by_cases hneg : i < 0
    · simp [hneg]
    · rw [if_neg hneg, List.getElem?_eq_none (by omega)]
  · have hgetp := get_eq hrep p
    have hmiss : (if p < 0 then none else ids[p.toNat]?) = none := by
      by_cases hneg : p < 0
      · simp [hneg]
      · rw [if_neg hneg]
        exact List.getElem?_eq_none (by omega)
    rw [hmiss] at hgetp
    unfold LinkedList.add
    rw [if_neg (by omega : ¬ p = 0), if_neg (by omega : ¬ p = ll.size)]
    rw [hgetp]

/-- C7: on every list state satisfying the invariants, `find` with a
non-mutating callback visits the chain nodes in forward order from `first`
with positions from 0, returning the first non-`undefined` value the
callback produces and visiting nothing further (this short-circuiting
first-match traversal is exactly `traverseSpec` over the chain enumeration),
and `undefined` when the callback never produces one; `get` and `indexOf`
are literally instances of this `find` traversal. -/
theorem find_traversal_characterization [DecidableEq α] (ll : LinkedList α)
    (ids : List Nat) (h : Rep ll ids) (cbs : Nat → Node α → Int → Option β)
    (idx : Int) (v : α) :
    LinkedList.find ll (pureCb cbs) = some (ll, traverseSpec ll.heap cbs ids 0) ∧
    LinkedList.get ll idx = LinkedList.find ll
      (fun s current position => (s, if position = idx then some current else none)) ∧
    LinkedList.indexOf ll v = LinkedList.find ll
      (fun s current position =>
        (s, match s.heap[current]? with
            | some nd => if nd.value = v then some position else none
            | none => none)) := by
  refine ⟨?_, rfl, rfl⟩
  have hcb : ∀ (s : LinkedList α) (i : Nat) (pos : Int) (nd : Node α),
      s.heap[i]? = some nd → pureCb cbs s i pos = (s, cbs i nd pos) := by
    intro s i pos nd hnd
    simp [pureCb, hnd]
  exact find_spec hcb h

/-- C8: `remove` with an argument that is neither a function nor parses as a
non-zero integer (`parseInt` yields `NaN`, so `parseInt(x, 10) || 0` yields
0) behaves exactly as `removeByPosition(0)`, which on a non-empty
invariant-satisfying list removes the head node and returns its value. -/
theorem remove_nonnumeric_defaults_to_position_zero (ll : LinkedList α)
    (ids : List Nat) (h : Rep ll ids) (hne : ids ≠ []) :
    LinkedList.remove ll (LinkedList.RemoveArg.byIndex none)
      = LinkedList.removeByPosition ll 0 ∧
    ∃ hd hn ll2, ll.first = some hd ∧ ll.heap[hd]? = some hn ∧
      LinkedList.removeByPosition ll 0 = some (ll2, JsOut.value hn.value) ∧
      ll2 = (LinkedList.removeFirst ll).1 := by
  refine ⟨rfl, ?_⟩
  have hplen : (0 : Int).toNat < ids.length := by
    have := List.length_pos.mpr hne
    simpa using this
  obtain ⟨c, nd, ll2, hc, hnd2, hrbp, hll2⟩ :=
    removeByPosition_found h 0 (by omega) hplen
  refine ⟨c, nd, ll2, ?_, hnd2, hrbp, hll2 rfl⟩
  exact (chainB_ptr h.1).trans hc

/-- C9 (amended): on every list whose head (resp. tail) node stores the
value `undefined`, `removeFirst` (resp. `removeLast`) does remove the node
and decrement `size`, and returns `undefined`; the absent signal for an
empty list, however, is JS `null` (`head && head.value` with a null head),
which is a different value under strict comparison — only a truthiness or
loose-equality check conflates the two. -/
theorem removeFirstLast_stored_undefined {β : Type} (ll : LinkedList (Option β))
    (f t : Nat) (fn tn : Node (Option β))
    (h1 : ll.first = some f) (h2 : ll.heap[f]? = some fn) (h3 : fn.value = none)
    (h4 : ll.last = some t) (h5 : ll.heap[t]? = some tn) (h6 : tn.value = none) :
    (LinkedList.removeFirst ll).2 = JsOut.value none ∧
    (LinkedList.removeFirst ll).1.size = ll.size - 1 ∧
    (LinkedList.removeFirst ll).1.first = fn.next ∧
    (LinkedList.removeLast ll).2 = JsOut.value none ∧
    (LinkedList.removeLast ll).1.size = ll.size - 1 ∧
    (LinkedList.removeLast ll).1.last = tn.previous ∧
    (LinkedList.removeFirst (LinkedList.empty (Option β))).2 = JsOut.nullv ∧
    (LinkedList.removeLast (LinkedList.empty (Option β))).2 = JsOut.nullv ∧
    JsOut.value (none : Option β) ≠ JsOut.nullv := by
  have hF : (LinkedList.removeFirst ll).2 = JsOut.value none ∧
      (LinkedList.removeFirst ll).1.size = ll.size - 1 ∧
      (LinkedList.removeFirst ll).1.first = fn.next := by
    cases hnx : fn.next with
    | none =>
        rw [removeFirst_single h1 h2 hnx]
        exact ⟨by rw [h3], rfl, rfl⟩
    | some f2 =>
        rw [removeFirst_cons h1 h2 hnx]
        exact ⟨by rw [h3], rfl, rfl⟩
  have hL : (LinkedList.removeLast ll).2 = JsOut.value none ∧
      (LinkedList.removeLast ll).1.size = ll.size - 1 ∧
      (LinkedList.removeLast ll).1.last = tn.previous := by
    cases hpv : tn.previous with
    | none =>
        rw [removeLast_single h4 h5 hpv]
        exact ⟨by rw [h6], rfl, rfl⟩
    | some l2 =>
        rw [removeLast_cons h4 h5 hpv]
        exact ⟨by rw [h6], rfl, rfl⟩
  exact ⟨hF.1, hF.2.1, hF.2.2, hL.1, hL.2.1, hL.2.2, rfl, rfl, fun hcon => nomatch hcon⟩

/-- C10: `find` with a callback that does not mutate the list — and `get`
and `indexOf`, whose internal callbacks never mutate — leave the entire
list state (`first`, `last`, `size`, and every node's value and links)
unchanged: whenever the traversal returns, the returned state is the input
state. -/
theorem queries_preserve_state [DecidableEq α] (ll : LinkedList α)
    (cb : LinkedList α → Nat → Int → LinkedList α × Option β)
    (hcb : ∀ s i pos, (cb s i pos).1 = s) :
    (∀ ll2 r, LinkedList.find ll cb = some (ll2, r) → ll2 = ll) ∧
    (∀ idx ll2 r, LinkedList.get ll idx = some (ll2, r) → ll2 = ll) ∧
    (∀ v ll2 r, LinkedList.indexOf ll v = some (ll2, r) → ll2 = ll) := by
  refine ⟨?_, ?_, ?_⟩
  · intro ll2 r hf
    exact findAux_frame hcb ll.heap.length ll ll.first 0 (ll2, r) hf
  · intro idx ll2 r hf
    exact findAux_frame (fun _ _ _ => rfl) ll.heap.length ll ll.first 0 (ll2, r) hf
  · intro v ll2 r hf
    exact findAux_frame (fun _ _ _ => rfl) ll.heap.length ll ll.first 0 (ll2, r) hf

/-! Witnesses: each theorem with hypotheses applied at a concrete input. -/

theorem remove_result_classification_witness :
    Rep exL3 [2, 1, 0] ∧
    LinkedList.remove exL3 (LinkedList.RemoveArg.byIndex (some 5))
      = some (exL3, JsOut.undef) ∧
    LinkedList.remove exL3 (LinkedList.RemoveArg.callback
      (liftPred (fun _ _ _ => false))) = some (exL3, JsOut.falsev) ∧
    (∃ ll2, LinkedList.remove exL3 (LinkedList.RemoveArg.callback
        (liftPred (fun _ nd _ => decide (nd.value = (20 : Int)))))
      = some (ll2, JsOut.value (20 : Int))) := by
  refine ⟨by decide, ?_, ?_, ?_⟩
  · exact (remove_result_classification exL3 [2, 1, 0] (fun _ _ _ => false) 5 0
      (by decide)).2.2.1 (by decide)
  · exact (remove_result_classification exL3 [2, 1, 0] (fun _ _ _ => false) 5 0
      (by decide)).1 (fun _ _ _ _ => rfl)
  · refine (remove_result_classification exL3 [2, 1, 0]
      (fun _ nd _ => decide (nd.value = (20 : Int))) 5 1 (by decide)).2.1
      (by decide) ?_ { value := 20, previous := some 2, next := some 0 }
      (by decide) (by decide)
    intro k hk hk1 m hm
    have hk0 : k = 0 := by omega
    subst hk0
    have hnode : exL3.heap[(2 : Nat)]?
        = some ({ value := 10, previous := none, next := some 1 } : Node Int) := by decide
    have hmeq := Option.some.inj (hnode.symm.trans hm)
    rw [← hmeq]
    decide

theorem get_add_out_of_range_witness :
    Rep exL2 [1, 0] ∧
    (LinkedList.get exL2 5 = some (exL2, none) ∧
     LinkedList.add exL2 99 5 = some (exL2, none)) :=
  ⟨by decide, get_add_out_of_range exL2 99 [1, 0] (by decide) 5 5
    (by decide) (by decide)⟩

theorem addLast_removeLast_roundtrip_witness :
    Rep exL3 [2, 1, 0] ∧
    (∃ llB, roundTrip exL3 (40 : Int) = some (llB, JsOut.value 40) ∧
      llB.first = exL3.first ∧ llB.last = exL3.last ∧ llB.size = exL3.size ∧
      (∀ i ∈ [2, 1, 0], llB.heap[i]? = exL3.heap[i]?) ∧ Rep llB [2, 1, 0]) :=
  ⟨by decide, addLast_removeLast_roundtrip exL3 [2, 1, 0] 40 (by decide)⟩

theorem find_traversal_characterization_witness :
    Rep exL3 [2, 1, 0] ∧
    LinkedList.find exL3
        (pureCb (fun _ nd pos => if nd.value = (20 : Int) then some pos else none))
      = some (exL3, traverseSpec exL3.heap
          (fun _ nd pos => if nd.value = (20 : Int) then some pos else none) [2, 1, 0] 0) :=
  ⟨by decide, (find_traversal_characterization exL3 [2, 1, 0] (by decide)
    (fun _ nd pos => if nd.value = (20 : Int) then some pos else none) 0 20).1⟩

theorem remove_nonnumeric_defaults_witness :
    Rep exL3 [2, 1, 0] ∧
    (LinkedList.remove exL3 (LinkedList.RemoveArg.byIndex none)
        = LinkedList.removeByPosition exL3 0 ∧
     ∃ hd hn ll2, exL3.first = some hd ∧ exL3.heap[hd]? = some hn ∧
       LinkedList.removeByPosition exL3 0 = some (ll2, JsOut.value hn.value) ∧
       ll2 = (LinkedList.removeFirst exL3).1) :=
  ⟨by decide, remove_nonnumeric_defaults_to_position_zero exL3 [2, 1, 0]
    (by decide) (by decide)⟩

theorem removeFirstLast_stored_undefined_witness :
    (exU.first = some 0 ∧ exU.heap[0]? = some { value := none, previous := none, next := none } ∧
     exU.last = some 0) ∧
    ((LinkedList.removeFirst exU).2 = JsOut.value none ∧
     (LinkedList.removeFirst exU).1.size = exU.size - 1 ∧
     (LinkedList.removeFirst exU).1.first = none ∧
     (LinkedList.removeLast exU).2 = JsOut.value none ∧
     (LinkedList.removeLast exU).1.size = exU.size - 1 ∧
     (LinkedList.removeLast exU).1.last = none ∧
     (LinkedList.removeFirst (LinkedList.empty (Option Unit))).2 = JsOut.nullv ∧
     (LinkedList.removeLast (LinkedList.empty (Option Unit))).2 = JsOut.nullv ∧
     JsOut.value (none : Option Unit) ≠ JsOut.nullv) :=
  ⟨⟨rfl, rfl, rfl⟩,
    removeFirstLast_stored_undefined exU 0 0
      { value := none, previous := none, next := none }
      { value := none, previous := none, next := none }
      rfl rfl rfl rfl rfl rfl⟩

theorem queries_preserve_state_witness :
    (∀ (s : LinkedList Int) (i : Nat) (q : Int),
      ((fun (u : LinkedList Int) (_ : Nat) (_ : Int) => (u, (none : Option Int))) s i q).1 = s) ∧
    (∀ ll2 r, LinkedList.find exL3
        (fun (u : LinkedList Int) (_ : Nat) (_ : Int) => (u, (none : Option Int)))
        = some (ll2, r) → ll2 = exL3) ∧
    (∀ idx ll2 r, LinkedList.get exL3 idx = some (ll2, r) → ll2 = exL3) :=
  ⟨fun _ _ _ => rfl,
   (queries_preserve_state exL3
     (fun (u : LinkedList Int) (_ : Nat) (_ : Int) => (u, (none : Option Int)))
     (fun _ _ _ => rfl)).1,
   (queries_preserve_state exL3
     (fun (u : LinkedList Int) (_ : Nat) (_ : Int) => (u, (none : Option Int)))
     (fun _ _ _ => rfl)).2.1⟩

end DsaJs
